import Mathlib

/-!
Shallow embedding of `src/anvil/bits.rs` (fastnbt): a bit-stream decoder that
expands densely packed fixed-width unsigned integers out of an array of 64-bit
words (Minecraft 1.15 blockstates / heightmaps).

Machine integers are modelled as `Nat` with explicit `% 2 ^ w` where overflow
or truncation matters.  The Rust code stores words as `i64` and reinterprets
them as `u64` (`*i as u64`), modelled by `toU64`.  Extraction goes through the
`bit_field` crate's `BitArray::get_bits` on a `&[u64]`, whose bit numbering is
little-endian: bit 0 of the stream is the least significant bit of word 0, and
`get_bits(begin..end)` right-aligns bit `begin` as the least significant bit of
the result.  Panics (division by zero for `bits_per_item = 0`, the library's
range assertions for `bits_per_item > 64` once an extraction happens) are
modelled as `none`.
-/

namespace AnvilBits

/-- Reinterpretation of an `i64` as a `u64`: the two's-complement bit pattern,
i.e. the value modulo `2 ^ 64` (nonnegative). -/
def toU64 (x : Int) : Nat := (x % 2 ^ 64).toNat

/-- The `bit_field` crate's `BitField::get_bits` on a `u64` `w` for the range
`s..e` (with `s ≤ e ≤ 64`): shift away the low `s` bits and keep `e - s` bits.
In Rust this is `(w << (64 - e)) >> (64 - e) >> s`; on a `u64` value
(`w < 2 ^ 64`) that equals `(w >> s) % 2 ^ (e - s)`. -/
def u64_get_bits (w s e : Nat) : Nat := (w >>> s) % 2 ^ (e - s)

/-- The `bit_field` crate's `BitArray::get_bits` on a `&[u64]` for the range
`b..e` (little-endian bit numbering across words; bit `64*k + j` of the stream
is bit `j` of word `k`).  Mirrors the crate's three cases: the range lies in a
single word, it ends exactly on a word boundary, or it straddles two adjacent
words (the only possibilities when `e - b ≤ 64`).  Out-of-range word indexes
read as `0`; inside `expand_generic`'s loop every index is in bounds. -/
def slice_get_bits (copy : List Nat) (b e : Nat) : Nat :=
  if b / 64 = e / 64 then u64_get_bits (copy.getD (b / 64) 0) (b % 64) (e % 64)
  else if e % 64 = 0 then u64_get_bits (copy.getD (b / 64) 0) (b % 64) 64
  else u64_get_bits (copy.getD (b / 64) 0) (b % 64) 64 +
    u64_get_bits (copy.getD (e / 64) 0) 0 (e % 64) * 2 ^ (64 - b % 64)

/-- Embedding of `expand_generic(data: &[i64], bits_per_item: usize) -> Vec<u16>`.
`none` models a panic: `vec![0; (data.len() * 64) / bits]` divides by zero when
`bits_per_item = 0`, and for `bits_per_item > 64` the first `get_bits` call
trips the bit library's range assertion (which only happens when the output
length is nonzero).  Each extracted field is cast `as u16`, i.e. reduced
`% 2 ^ 16`. -/
def expand_generic (data : List Int) (bits_per_item : Nat) : Option (List Nat) :=
  let bits := bits_per_item
  if bits = 0 then none
  else
    let n := data.length * 64 / bits
    let copy := data.map toU64
    if 64 < bits ∧ n ≠ 0 then none
    else some ((List.range n).map fun i =>
      slice_get_bits copy (i * bits) (i * bits + bits) % 2 ^ 16)

/-- Embedding of `expand_heightmap(data: &[i64]) -> Vec<u16>`:
`expand_generic(data, 9)`. -/
def expand_heightmap (data : List Int) : Option (List Nat) :=
  expand_generic data 9

/-- Embedding of `bits_per_block(palette_len: usize) -> usize`.  The source's
else-branch computes `max((palette_len as f64).log2().ceil() as usize, 4)` in
double-precision floating point; its exact-arithmetic intent `⌈log₂ n⌉` is
modelled by `Nat.clog 2`. -/
def bits_per_block (palette_len : Nat) : Nat :=
  if palette_len < 16 then 4
  else max (Nat.clog 2 palette_len) 4

/-- Embedding of `expand_blockstates(state: &[i64], palette_len: usize)`:
`expand_generic(state, bits_per_block(palette_len))`. -/
def expand_blockstates (state : List Int) (palette_len : Nat) : Option (List Nat) :=
  expand_generic state (bits_per_block palette_len)

/-- Bit `j` of the continuous little-endian bitstream formed by the word list:
bit `j % 64` (counting from the least significant bit) of word `j / 64`. -/
def stream_bit (copy : List Nat) (j : Nat) : Nat :=
  (copy.getD (j / 64) 0 >>> (j % 64)) % 2

/-- The unsigned value of the `w`-bit field starting at stream bit `b`, read
least-significant-bit first: stream bit `b` contributes `2 ^ 0`, stream bit
`b + w - 1` contributes `2 ^ (w - 1)`. -/
def field_val (copy : List Nat) (b w : Nat) : Nat :=
  ∑ j ∈ Finset.range w, stream_bit copy (b + j) * 2 ^ j

/-- Bit `j` of the bitstream as the specification document describes it: bit 0
is the MOST significant bit of word 0, so stream bit `j` is bit `63 - j % 64`
(counting from the least significant bit) of word `j / 64`. -/
def spec_msb_bit (copy : List Nat) (j : Nat) : Nat :=
  (copy.getD (j / 64) 0 >>> (63 - j % 64)) % 2

/-- The field value as the specification document describes it: bits
`[b, b + w)` of the MSB-numbered stream read most-significant-bit first. -/
def spec_msb_field (copy : List Nat) (b w : Nat) : Nat :=
  ∑ j ∈ Finset.range w, spec_msb_bit copy (b + j) * 2 ^ (w - 1 - j)

/-- The whole output sequence as the specification document describes it
(before any cast): value `i` is the field at `[i * bits, (i+1) * bits)` of the
MSB-first stream. -/
def spec_msb_read (data : List Int) (bits : Nat) : List Nat :=
  (List.range (data.length * 64 / bits)).map fun i =>
    spec_msb_field (data.map toU64) (i * bits) bits

/-- The 36-word input of the repository's `nether_heightmap_v1_15_2` test. -/
def netherInput : List Int :=
  [2310355422147575936, 1155177711073787968, 577588855536893984,
   288794427768446992, 144397213884223496, 72198606942111748,
   36099303471055874, -9205322385119247871, 4620710844295151872,
   2310355422147575936, 1155177711073787968, 577588855536893984,
   288794427768446992, 144397213884223496, 72198606942111748,
   36099303471055874, -9205322385119247871, 4620710844295151872,
   2310355422147575936, 1155177711073787968, 577588855536893984,
   288794427768446992, 144397213884223496, 72198606942111748,
   36099303471055874, -9205322385119247871, 4620710844295151872,
   2310355422147575936, 1155177711073787968, 577588855536893984,
   288794427768446992, 144397213884223496, 72198606942111748,
   36099303471055874, -9205322385119247871, 4620710844295151872]

/-- The 36-word input of the repository's `heightmap_overworld_v1_15_2` test. -/
def overworldInput : List Int :=
  [1299610109330100808, 649787462479005732, 329397330866873490,
   -9060925171218247159, 4692909455540619556, 2346453626107004050,
   -8050144124289646015, 5198158688002654496, 2599149849916022926,
   -7941846763497811896, 649769835865982755, -1985452877601561582,
   8230641191400739272, 4692909451237263588, 2057661397361812594,
   -7906029485971705287, 5126101092889936160, 2599079343463931022,
   -7941846763497811896, -3970923381816146141, -6606172535203224687,
   8230641191400739144, 2960142884643391716, 2057660297841779794,
   -8483335214034816455, 5126100816936184084, 2526951243511307406,
   -7941882016858338234, -8591634191684319453, -4295817113055649007,
   7075463488933695880, 3537731740163475652, 1768865870081737826,
   -8338939101813906895, 5053902485947822360, 2526951242973911180]

end AnvilBits

namespace AnvilBits

set_option maxRecDepth 1000000

/-- Bit `b..e` of a word, read as a mod-and-shift, agrees with the
least-significant-bit-first weighted sum of the individual bits. -/
lemma shiftRight_mod_two_pow (w s k : Nat) :
    (w >>> s) % 2 ^ k = ∑ j ∈ Finset.range k, ((w >>> (s + j)) % 2) * 2 ^ j := by
  induction k with
  | zero => simp [Nat.mod_one]
  | succ k ih =>
    have hd : (w >>> s) / 2 ^ k = w >>> (s + k) := by
      rw [Nat.shiftRight_add, Nat.shiftRight_eq_div_pow (w >>> s) k]
    rw [Finset.sum_range_succ, ← ih, pow_succ, Nat.mod_mul, hd, Nat.mul_comm (2 ^ k)]

/-- A field that lies entirely inside word `k` is the right-shifted,
truncated value of that word. -/
lemma field_val_word (copy : List Nat) (k s len : Nat) (h : s + len ≤ 64) :
    field_val copy (64 * k + s) len = (copy.getD k 0 >>> s) % 2 ^ len := by
  rw [shiftRight_mod_two_pow]
  refine Finset.sum_congr rfl ?_
  intro j hj
  have hj64 : s + j < 64 := by
    have := Finset.mem_range.mp hj
    omega
  unfold stream_bit
  have h1 : 64 * k + s + j = 64 * k + (s + j) := by omega
  have h2 : (64 * k + (s + j)) / 64 = k := by omega
  have h3 : (64 * k + (s + j)) % 64 = s + j := by omega
  rw [h1, h2, h3]

/-- Splitting a field at an intermediate bit position. -/
lemma field_val_add (copy : List Nat) (b m n : Nat) :
    field_val copy b (m + n) = field_val copy b m + 2 ^ m * field_val copy (b + m) n := by
  induction n with
  | zero => simp [field_val]
  | succ n ih =>
    have hsucc : ∀ c j, field_val copy c (j + 1)
        = field_val copy c j + stream_bit copy (c + j) * 2 ^ j := by
      intro c j
      unfold field_val
      rw [Finset.sum_range_succ]
    rw [← Nat.add_assoc, hsucc, ih, hsucc, ← Nat.add_assoc b m n]
    ring

/-- Every extracted field is bounded by `2 ^ width`. -/
lemma field_val_lt (copy : List Nat) (b w : Nat) : field_val copy b w < 2 ^ w := by
  have hle : field_val copy b w ≤ ∑ j ∈ Finset.range w, 2 ^ j := by
    refine Finset.sum_le_sum ?_
    intro j hj
    have hbit : stream_bit copy (b + j) ≤ 1 := by
      have : stream_bit copy (b + j) < 2 := Nat.mod_lt _ (by norm_num)
      omega
    calc stream_bit copy (b + j) * 2 ^ j ≤ 1 * 2 ^ j :=
          Nat.mul_le_mul_right _ hbit
      _ = 2 ^ j := Nat.one_mul _
  have hgeom : ∀ n : Nat, ∑ j ∈ Finset.range n, 2 ^ j = 2 ^ n - 1 := by
    intro n
    induction n with
    | zero => simp
    | succ n ih =>
      have hpos : 0 < 2 ^ n := Nat.pos_pow_of_pos n (by norm_num)
      rw [Finset.sum_range_succ, ih, pow_succ]
      omega
  have hpos : 0 < 2 ^ w := Nat.pos_pow_of_pos w (by norm_num)
  rw [hgeom w] at hle
  omega

/-- Correctness of the crate's three-way case split: `slice_get_bits` on a
range of at most 64 bits is exactly the little-endian bitstream field. -/
lemma slice_get_bits_eq_field_val (copy : List Nat) (b e : Nat)
    (hlt : b < e) (hle : e - b ≤ 64) :
    slice_get_bits copy b e = field_val copy b (e - b) := by
  obtain ⟨q, r, hr, rfl⟩ : ∃ q r, r < 64 ∧ b = 64 * q + r :=
    ⟨b / 64, b % 64, Nat.mod_lt _ (by norm_num), by omega⟩
  obtain ⟨len, rfl⟩ : ∃ len, e = 64 * q + r + len := ⟨e - (64 * q + r), by omega⟩
  have hlen0 : 0 < len := by omega
  have hlen64 : len ≤ 64 := by omega
  have hdiff : 64 * q + r + len - (64 * q + r) = len := by omega
  rw [hdiff]
  have h1 : (64 * q + r) / 64 = q := by omega
  have h2 : (64 * q + r) % 64 = r := by omega
  rcases Nat.lt_trichotomy (r + len) 64 with hc | hc | hc
  · -- the field lies inside a single word
    have h3 : (64 * q + r + len) / 64 = q := by omega
    have h4 : (64 * q + r + len) % 64 = r + len := by omega
    unfold slice_get_bits
    rw [h1, h2, h3, h4, if_pos rfl, field_val_word copy q r len (by omega)]
    simp [u64_get_bits, Nat.add_sub_cancel_left]
  · -- the field ends exactly on a word boundary
    have h3 : (64 * q + r + len) / 64 = q + 1 := by omega
    have h4 : (64 * q + r + len) % 64 = 0 := by omega
    unfold slice_get_bits
    rw [h1, h2, h3, h4, if_neg (show ¬(q = q + 1) by omega), if_pos rfl,
      field_val_word copy q r len (by omega)]
    have hexp : 64 - r = len := by omega
    simp [u64_get_bits, hexp]
  · -- the field straddles two adjacent words
    have h3 : (64 * q + r + len) / 64 = q + 1 := by omega
    have h4 : (64 * q + r + len) % 64 = r + len - 64 := by omega
    unfold slice_get_bits
    rw [h1, h2, h3, h4, if_neg (show ¬(q = q + 1) by omega),
      if_neg (show ¬(r + len - 64 = 0) by omega)]
    have hsplit : len = (64 - r) + (r + len - 64) := by omega
    conv_rhs => rw [hsplit]
    rw [field_val_add]
    have h5 : 64 * q + r + (64 - r) = 64 * (q + 1) + 0 := by omega
    rw [h5, field_val_word copy q r (64 - r) (by omega),
      field_val_word copy (q + 1) 0 (r + len - 64) (by omega)]
    simp only [u64_get_bits, Nat.sub_zero]
    ring

/-- For a valid width the decoder returns `some` of the mapped extraction. -/
lemma expand_generic_eq (data : List Int) (bits : Nat)
    (h1 : 1 ≤ bits) (h2 : bits ≤ 64) :
    expand_generic data bits = some ((List.range (data.length * 64 / bits)).map fun i =>
      slice_get_bits (data.map toU64) (i * bits) (i * bits + bits) % 2 ^ 16) := by
  simp only [expand_generic]
  rw [if_neg (by omega), if_neg (by rintro ⟨hgt, -⟩; omega)]

/-- Output length of the decoder for a valid width. -/
lemma expand_generic_length (data : List Int) (bits : Nat)
    (h1 : 1 ≤ bits) (h2 : bits ≤ 64) (out : List Nat)
    (hout : expand_generic data bits = some out) :
    out.length = data.length * 64 / bits := by
  rw [expand_generic_eq data bits h1 h2] at hout
  have h := Option.some.inj hout
  subst h
  simp

/-- Element `i` of the decoder's output is the `i`-th little-endian bitstream
field, truncated to 16 bits by the `as u16` cast. -/
lemma expand_generic_getD (data : List Int) (bits : Nat)
    (h1 : 1 ≤ bits) (h2 : bits ≤ 64) (out : List Nat)
    (hout : expand_generic data bits = some out)
    (i : Nat) (hi : i < out.length) :
    out.getD i 0 = field_val (data.map toU64) (i * bits) bits % 2 ^ 16 := by
  rw [expand_generic_eq data bits h1 h2] at hout
  have h := Option.some.inj hout
  subst h
  have hfl := slice_get_bits_eq_field_val (data.map toU64) (i * bits) (i * bits + bits)
    (by omega) (by omega)
  rw [show i * bits + bits - i * bits = bits from by omega] at hfl
  rw [List.getD_eq_getElem _ _ hi, List.getElem_map, List.getElem_range, hfl]

/-- Validation of the embedding against the repository's second fixture
(`heightmap_overworld_v1_15_2`): decoding the documented 36-word array at
width 9 reproduces the exact 256-value literal sequence of the test. -/
lemma overworld_fixture_reproduced :
    expand_heightmap overworldInput = some
      [72, 73, 72, 72, 72, 73, 72, 72, 72, 72, 72, 72, 72, 72, 72, 73, 72, 72, 72, 72, 73,
       72, 72, 72, 73, 72, 72, 72, 72, 73, 72, 73, 73, 72, 72, 72, 73, 72, 72, 72, 71, 72,
       72, 72, 72, 72, 72, 73, 72, 72, 72, 72, 72, 73, 71, 71, 72, 71, 72, 72, 72, 72, 72,
       72, 72, 72, 72, 72, 71, 71, 71, 71, 71, 71, 71, 71, 71, 72, 72, 72, 72, 72, 72, 72,
       71, 71, 71, 71, 71, 71, 71, 71, 71, 71, 72, 72, 72, 72, 72, 72, 71, 71, 71, 71, 72,
       71, 71, 71, 71, 71, 72, 72, 72, 73, 72, 72, 71, 71, 71, 71, 71, 71, 71, 71, 71, 71,
       71, 72, 72, 72, 72, 72, 71, 71, 71, 71, 71, 71, 71, 71, 71, 71, 71, 71, 69, 69, 69,
       69, 69, 69, 69, 71, 71, 71, 71, 71, 71, 71, 71, 71, 69, 69, 69, 69, 69, 69, 69, 71,
       71, 71, 71, 71, 71, 71, 71, 71, 69, 69, 69, 69, 69, 69, 70, 71, 71, 71, 71, 71, 72,
       70, 70, 70, 70, 70, 70, 70, 70, 70, 71, 71, 71, 71, 71, 71, 70, 70, 70, 70, 70, 70,
       70, 70, 70, 70, 70, 71, 71, 71, 70, 70, 70, 70, 70, 70, 70, 70, 70, 70, 70, 70, 70,
       70, 70, 70, 70, 70, 70, 70, 70, 70, 70, 70, 70, 70, 70, 70, 70, 70, 70, 70, 70, 70,
       70, 70, 70, 70] := by
  decide

/-- C1 (amended): for every word array and every bits_per_item in [1, 64],
output value i of expand_generic equals the unsigned integer formed by reading
bits [i*bits, (i+1)*bits) of the continuous bitstream in which bit 0 is the
LEAST significant bit of word 0, read least-significant-bit first (bit i*bits
becomes the least significant bit of the extracted value and bit
(i+1)*bits - 1 the most significant), truncated to its low 16 bits by the
`as u16` cast. -/
theorem C1_expand_generic_reads_lsb_first :
    ∀ (data : List Int) (bits : Nat), 1 ≤ bits → bits ≤ 64 →
    ∀ out, expand_generic data bits = some out →
    ∀ i, i < out.length →
    out.getD i 0 = field_val (data.map toU64) (i * bits) bits % 2 ^ 16 :=
  fun data bits h1 h2 out hout i hi =>
    expand_generic_getD data bits h1 h2 out hout i hi

/-- C1 counterexample: at words = [1], bits_per_item = 1, the decoder's output
is not the sequence described by the claim's big-endian MSB-first reading
(the code reads bit 0 as the least significant bit of word 0: output value 0
is 1, while the claimed MSB-first reading of bits [0, 1) gives 0). -/
theorem C1_counterexample_msb_first_reading_false :
    expand_generic [(1 : Int)] 1 ≠ some (spec_msb_read [(1 : Int)] 1) ∧
    (expand_generic [(1 : Int)] 1).map (fun l => l.getD 0 0) = some 1 ∧
    spec_msb_field (List.map toU64 [(1 : Int)]) (0 * 1) 1 = 0 := by
  refine ⟨by decide, by decide, by decide⟩

/-- C1 witness: the amended theorem applied at words = [5], bits_per_item = 64. -/
theorem C1_witness_word_5_width_64 :
    [(5 : Nat)].getD 0 0 = field_val (List.map toU64 [(5 : Int)]) (0 * 64) 64 % 2 ^ 16 :=
  C1_expand_generic_reads_lsb_first [(5 : Int)] 64 (by decide) (by decide)
    [5] (by decide) 0 (by decide)

/-- C2: on the 36-word input of the nether_heightmap_v1_15_2 test (negative
i64 words reinterpreted as their two's-complement bit patterns),
expand_heightmap returns exactly 256 values, all equal to 128. -/
theorem C2_nether_heightmap_all_128 :
    expand_heightmap netherInput = some (List.replicate 256 128) := by
  decide

/-- C3: for every word array and every bits_per_item in [1, 64], the decoder
returns a sequence of length floor(words.length * 64 / bits_per_item). -/
theorem C3_expand_generic_length_law :
    ∀ (data : List Int) (bits : Nat), 1 ≤ bits → bits ≤ 64 →
    ∃ out, expand_generic data bits = some out ∧
      out.length = data.length * 64 / bits :=
  fun data bits h1 h2 =>
    ⟨_, expand_generic_eq data bits h1 h2,
      expand_generic_length data bits h1 h2 _ (expand_generic_eq data bits h1 h2)⟩

/-- C3 witness: one word at width 9 yields floor(64 / 9) = 7 values. -/
theorem C3_witness_one_word_width_9 :
    ∃ out, expand_generic [(0 : Int)] 9 = some out ∧ out.length = 7 :=
  C3_expand_generic_length_law [(0 : Int)] 9 (by decide) (by decide)

/-- C4: expand_heightmap is exactly expand_generic at width 9. -/
theorem C4_expand_heightmap_is_generic_9 :
    ∀ data : List Int, expand_heightmap data = expand_generic data 9 :=
  fun _ => rfl

/-- C5: for every state array and every positive palette_len,
expand_blockstates is exactly the generic extractor at the width computed by
bits_per_block, with no additional logic. -/
theorem C5_expand_blockstates_is_composition :
    ∀ (state : List Int) (palette_len : Nat), 1 ≤ palette_len →
    expand_blockstates state palette_len =
      expand_generic state (bits_per_block palette_len) :=
  fun _ _ _ => rfl

/-- C5 witness: the composition law at state = [0], palette_len = 1. -/
theorem C5_witness_palette_1 :
    expand_blockstates [(0 : Int)] 1 = expand_generic [(0 : Int)] (bits_per_block 1) :=
  C5_expand_blockstates_is_composition [(0 : Int)] 1 (by decide)

/-- C6: every palette_len in [1, 15] gets the minimum width 4. -/
theorem C6_bits_per_block_minimum_4 :
    ∀ palette_len : Nat, 1 ≤ palette_len → palette_len ≤ 15 →
    bits_per_block palette_len = 4 := by
  intro p h1 h2
  unfold bits_per_block
  rw [if_pos (by omega)]

/-- C6 witness: a palette of size 1 still reserves 4 bits per field. -/
theorem C6_witness_palette_1_width_4 : bits_per_block 1 = 4 :=
  C6_bits_per_block_minimum_4 1 (by decide) (by decide)

/-- C8 counterexample: palette_len = 0 does not fail: bits_per_block returns
the normal result 4 (0 < 16 takes the small-palette branch), and
bits_per_item = 65 > 64 with a one-word input returns a normal empty vector
(output length floor(64 / 65) = 0, so no extraction ever runs). -/
theorem C8_counterexample_invalid_inputs_return_normally :
    bits_per_block 0 = 4 ∧ expand_generic [(0 : Int)] 65 = some [] := by
  refine ⟨by decide, by decide⟩

/-- C8 (amended): bits_per_block(0) returns the normal result 4 rather than
failing; expand_generic panics (fails fast) for bits_per_item = 0 (division by
zero computing the output length) and for bits_per_item > 64 whenever the
output length is nonzero (the bit library's range assertion), but returns an
empty vector normally when bits_per_item > 64 and the output length is 0. -/
theorem C8_invalid_width_behavior :
    bits_per_block 0 = 4 ∧
    (∀ data : List Int, expand_generic data 0 = none) ∧
    (∀ (data : List Int) (bits : Nat), 64 < bits → data.length * 64 / bits ≠ 0 →
      expand_generic data bits = none) ∧
    expand_generic [(0 : Int)] 65 = some [] := by
  refine ⟨by decide, fun data => rfl, fun data bits h1 h2 => ?_, by decide⟩
  simp only [expand_generic]
  rw [if_neg (by omega), if_pos ⟨h1, h2⟩]

/-- C8 witness: two words at width 65 would extract one field, so the
assertion in the first extraction fires (modelled as none). -/
theorem C8_witness_two_words_width_65 :
    expand_generic [(0 : Int), 0] 65 = none :=
  C8_invalid_width_behavior.2.2.1 [(0 : Int), 0] 65 (by decide) (by decide)

/-- C9: for every word array and every bits_per_item in [1, 64], every decoded
value v satisfies v < 2 ^ bits_per_item (values are naturals, so 0 ≤ v). -/
theorem C9_expand_generic_range_law :
    ∀ (data : List Int) (bits : Nat), 1 ≤ bits → bits ≤ 64 →
    ∀ out, expand_generic data bits = some out →
    ∀ v ∈ out, v < 2 ^ bits := by
  intro data bits h1 h2 out hout v hv
  rw [expand_generic_eq data bits h1 h2] at hout
  have h := Option.some.inj hout
  subst h
  obtain ⟨i, hi, rfl⟩ := List.mem_map.mp hv
  have hfl := slice_get_bits_eq_field_val (data.map toU64) (i * bits) (i * bits + bits)
    (by omega) (by omega)
  rw [show i * bits + bits - i * bits = bits from by omega] at hfl
  rw [hfl]
  have hb := field_val_lt (data.map toU64) (i * bits) bits
  by_cases hc : bits ≤ 16
  · exact lt_of_le_of_lt (Nat.mod_le _ _) hb
  · exact lt_of_lt_of_le (Nat.mod_lt _ (by norm_num))
      (Nat.pow_le_pow_right (by norm_num) (by omega))

/-- C9 witness: the range law applied at words = [5], bits_per_item = 64. -/
theorem C9_witness_word_5_width_64 : (5 : Nat) < 2 ^ 64 :=
  C9_expand_generic_range_law [(5 : Int)] 64 (by decide) (by decide)
    [5] (by decide) 5 (by decide)

/-- C10: for bits_per_item in [17, 64] the returned value is the extracted
field reduced modulo 2 ^ 16 (the `as u16` cast); concretely, at words = [-1]
(all 64 bits set) and width 17 every field is 131071 = 2 ^ 17 - 1, yet the
decoder returns 65535 = 2 ^ 16 - 1: fields wider than 16 bits are silently
truncated to their low 16 bits rather than returned in full. -/
theorem C10_fields_wider_than_16_truncated :
    (∀ (data : List Int) (bits : Nat), 17 ≤ bits → bits ≤ 64 →
      ∀ out, expand_generic data bits = some out →
      ∀ i, i < out.length →
      out.getD i 0 = field_val (data.map toU64) (i * bits) bits % 2 ^ 16) ∧
    expand_generic [(-1 : Int)] 17 = some [65535, 65535, 65535] ∧
    field_val [toU64 (-1)] 0 17 = 131071 := by
  refine ⟨fun data bits h1 h2 out hout i hi =>
    expand_generic_getD data bits (by omega) h2 out hout i hi, by decide, by decide⟩

/-- C10 witness: the truncation law applied at words = [-1], width 17. -/
theorem C10_witness_minus_one_width_17 :
    [(65535 : Nat), 65535, 65535].getD 0 0 =
      field_val (List.map toU64 [(-1 : Int)]) (0 * 17) 17 % 2 ^ 16 :=
  C10_fields_wider_than_16_truncated.1 [(-1 : Int)] 17 (by decide) (by decide)
    [65535, 65535, 65535] (by decide) 0 (by decide)

end AnvilBits
